import Mathlib

/-!
Verification of the S3 file-management-and-notification system.

Shallow embedding of the repository's Python sources:
* `move_files_in_s3.py`  (`move_and_clean_s3_objects`, `key_exists`)
* `s3_file_uploader.py`  (`upload_files_to_s3`, `file_exists_in_s3`)
* `s3_log_uploader.py`   (`upload_log_to_s3`)
* `sns_manager.py`       (`subscribe_email_to_topic`)

Python strings are modelled as `List Char` (a key, a content blob and a
message are all strings).  The S3 bucket is an association list from key to
content; the listing returned by `list_objects_v2` is the list of keys of
that association list, taken once at the start of a run, as in the source.
Provider errors raised by `head_object` (re-raised by `key_exists` /
`file_exists_in_s3` for non-404 codes), by `list_objects_v2` and by
`upload_file` are modelled by explicit fault oracles; `fun d => none` is the
fault-free execution.  Each remote call the reorganizer performs is recorded
in a trace so that ordering claims can be stated.
-/

/-- A Python string: key, content or message. -/
abbrev Str := List Char

/-- The bucket: an association list from object key to object content.
`list_objects_v2` returns the keys in list order. -/
structure S3State where
  objects : List (Str × Str)
deriving DecidableEq

/-- First binding of key `k` in an association list. -/
def lookupAssoc : List (Str × Str) → Str → Option Str
  | [], _ => none
  | p :: rest, k => if p.1 = k then some p.2 else lookupAssoc rest k

/-- Remove every binding of key `k`. -/
def eraseAssoc : List (Str × Str) → Str → List (Str × Str)
  | [], _ => []
  | p :: rest, k => if p.1 = k then eraseAssoc rest k else p :: eraseAssoc rest k

/-- Content stored at key `k`, if any. -/
def lookupKey (st : S3State) (k : Str) : Option Str :=
  lookupAssoc st.objects k

/-- `head_object`-style existence check (`key_exists` / `file_exists_in_s3`
when no provider fault is injected). -/
def keyExistsS3 (st : S3State) (k : Str) : Bool :=
  (lookupKey st k).isSome

/-- `put_object` / the write half of `copy_object`: store `v` at key `k`. -/
def putObject (st : S3State) (k : Str) (v : Str) : S3State :=
  ⟨(k, v) :: eraseAssoc st.objects k⟩

/-- `delete_object`: remove key `k`. -/
def deleteObject (st : S3State) (k : Str) : S3State :=
  ⟨eraseAssoc st.objects k⟩

/-- `copy_object`: copy the content at `src` to `dst` (no-op if `src` is
absent; in the runs we verify the source always exists). -/
def copyObject (st : S3State) (src : Str) (dst : Str) : S3State :=
  match lookupKey st src with
  | some v => putObject st dst v
  | none => st

/-- The keys returned by the single `list_objects_v2` call. -/
def listingOf (st : S3State) : List Str :=
  st.objects.map Prod.fst

/-- One remote S3 call performed by the reorganizer. -/
inductive S3Op where
  | head : Str → S3Op
  | copy : Str → Str → S3Op
  | del : Str → S3Op
deriving DecidableEq

/-- Effect of one recorded call on the bucket. -/
def applyOp (st : S3State) (op : S3Op) : S3State :=
  match op with
  | S3Op.head _ => st
  | S3Op.copy src dst => copyObject st src dst
  | S3Op.del k => deleteObject st k

/-- Replay a trace of calls. -/
def applyTrace (st : S3State) (tr : List S3Op) : S3State :=
  tr.foldl applyOp st

/-- Python `str.split('_')` (split on every underscore, keeping empty
pieces, never returning an empty list). -/
def splitOnUnderscore : List Char → List (List Char)
  | [] => [[]]
  | c :: rest =>
    if c = '_' then [] :: splitOnUnderscore rest
    else
      match splitOnUnderscore rest with
      | [] => [[c]]
      | g :: gs => (c :: g) :: gs

/-- `file_key.split('_')[0]`: the sales-representative identifier. -/
def srId (k : Str) : Str :=
  (splitOnUnderscore k).headD []

/-- `f"{source_pre}{sr_identifier}/{file_key}"`: the destination key. -/
def newKey (pre : Str) (k : Str) : Str :=
  pre ++ srId k ++ '/' :: k

/-- `sales_rep_files.setdefault(sr, []).append(k)` on an insertion-ordered
association list (a Python dict). -/
def recAppend (recs : List (Str × List Str)) (sr : Str) (k : Str) :
    List (Str × List Str) :=
  match recs with
  | [] => [(sr, [k])]
  | (s, fs) :: rest =>
    if s = sr then (s, fs ++ [k]) :: rest else (s, fs) :: recAppend rest sr k

/-- The relocation list recorded for owner `sr` (empty if absent). -/
def recLookup : List (Str × List Str) → Str → List Str
  | [], _ => []
  | p :: rest, sr => if p.1 = sr then p.2 else recLookup rest sr

/-- Outcome of the per-key loop of `move_and_clean_s3_objects`:
final bucket, relocation records, trace of S3 calls, and the error detail
of the `ClientError` that aborted the loop, if any. -/
structure RunOut where
  state : S3State
  recs : List (Str × List Str)
  trace : List S3Op
  err : Option Str
deriving DecidableEq

/-- The `for obj in response['Contents']` loop of
`move_and_clean_s3_objects` (lines 34-62).  `faults d` is the error detail
raised by `head_object` on key `d` with a non-404 code, which `key_exists`
re-raises; `none` means the check answers normally. -/
def runKeys (faults : Str → Option Str) (pre : Str) :
    List Str → S3State → List (Str × List Str) → RunOut
  | [], st, recs => ⟨st, recs, [], none⟩
  | k :: rest, st, recs =>
    if pre.isPrefixOf k then runKeys faults pre rest st recs
    else
      match faults (newKey pre k) with
      | some e => ⟨st, recs, [S3Op.head (newKey pre k)], some e⟩
      | none =>
        if keyExistsS3 st (newKey pre k) then
          let out := runKeys faults pre rest (deleteObject st k) recs
          ⟨out.state, out.recs, S3Op.head (newKey pre k) :: S3Op.del k :: out.trace,
            out.err⟩
        else
          let out := runKeys faults pre rest
            (deleteObject (copyObject st k (newKey pre k)) k)
            (recAppend recs (srId k) k)
          ⟨out.state, out.recs,
            S3Op.head (newKey pre k) :: S3Op.copy k (newKey pre k) :: S3Op.del k ::
              out.trace,
            out.err⟩

/-- One SNS publication. -/
structure Notif where
  subject : Str
  message : Str
deriving DecidableEq

/-- `f"Files Moved Notification for SR{sr}"`. -/
def mkSubject (sr : Str) : Str :=
  "Files Moved Notification for SR".data ++ sr

/-- `', '.join(files)`. -/
def joinComma (files : List Str) : Str :=
  List.intercalate ", ".data files

/-- `f"Files moved for SR{sr}: {', '.join(files)}"`. -/
def mkMessage (sr : Str) (files : List Str) : Str :=
  "Files moved for SR".data ++ sr ++ ": ".data ++ joinComma files

/-- `f"An AWS client error occurred: {e}"`. -/
def awsErrMsg (e : Str) : Str :=
  "An AWS client error occurred: ".data ++ e

/-- Overall outcome of `move_and_clean_s3_objects`: final bucket, the SNS
publications, the trace of S3 calls, and the returned
`(success, message)` pair. -/
structure RunResult where
  state : S3State
  notifs : List Notif
  trace : List S3Op
  ok : Bool
  msg : Str
deriving DecidableEq

/-- The fault-free oracle. -/
def noFaults : Str → Option Str := fun _ => none

/-- `move_and_clean_s3_objects(bucket, source_pre, topic)`.
`listFault` is the error detail if `list_objects_v2` itself raises a
`ClientError`.  On a `ClientError` anywhere inside the `try`, the function
returns `(False, f"An AWS client error occurred: {e}")` without reaching
the publish loop; otherwise it publishes one message per recorded owner and
returns `(True, ...)` with the "nothing to do" message exactly when no file
was moved or deleted. -/
def move_and_clean_s3_objects (listFault : Option Str)
    (faults : Str → Option Str) (pre : Str) (st : S3State) : RunResult :=
  match listFault with
  | some e => ⟨st, [], [], false, awsErrMsg e⟩
  | none =>
    let out := runKeys faults pre (listingOf st) st []
    match out.err with
    | some e => ⟨out.state, [], out.trace, false, awsErrMsg e⟩
    | none =>
      if out.recs.isEmpty then
        ⟨out.state, [], out.trace, true, "No files were moved or deleted.".data⟩
      else
        ⟨out.state, out.recs.map (fun p => ⟨mkSubject p.1, mkMessage p.1 p.2⟩),
          out.trace, true,
          "Files successfully moved and notifications sent.".data⟩

/-- `upload_log_to_s3(bucket, key, local_log_file)` from
`s3_log_uploader.py`, fault-free path: fetch existing content at `key`
(`NoSuchKey` gives the empty string), read `newLog` from the local file,
store existing followed by new, return `(True, None)`. -/
def upload_log_to_s3 (st : S3State) (key : Str) (newLog : Str) :
    S3State × Bool × Option Str :=
  let existing := (lookupKey st key).getD []
  (putObject st key (existing ++ newLog), true, none)

/-- Outcome of `upload_files_to_s3`: final bucket, `files_uploaded`,
`error_messages`, and the returned `(success, message)` pair. -/
structure UploadResult where
  state : S3State
  uploaded : List Str
  errors : List Str
  ok : Bool
  msg : Str
deriving DecidableEq

/-- `f"Failed to upload {filename}. Error: {e}"`. -/
def uploadFailMsg (fn : Str) (e : Str) : Str :=
  "Failed to upload ".data ++ fn ++ ". Error: ".data ++ e

/-- The `for filename in os.listdir(...)` loop of `upload_files_to_s3`:
process only names ending in `.csv`; skip a file whose name already exists
as a key in the bucket; otherwise attempt `upload_file`, which either
stores the bytes under the bare filename or raises a `ClientError` whose
detail `upFaults filename` is collected into `error_messages`. -/
def uploadLoop (upFaults : Str → Option Str) :
    List (Str × Str) → S3State → List Str → List Str →
      S3State × List Str × List Str
  | [], st, ups, errs => (st, ups, errs)
  | (fn, bytes) :: rest, st, ups, errs =>
    if (".csv".data).isSuffixOf fn then
      if keyExistsS3 st fn then uploadLoop upFaults rest st ups errs
      else
        match upFaults fn with
        | some e => uploadLoop upFaults rest st ups (errs ++ [uploadFailMsg fn e])
        | none => uploadLoop upFaults rest (putObject st fn bytes) (ups ++ [fn]) errs
    else uploadLoop upFaults rest st ups errs

/-- `upload_files_to_s3(bucket, csv_local_directory)` from
`s3_file_uploader.py`.  `files` is the local directory listing as
(filename, bytes) pairs.  Note the function takes no destination-directory
argument and uploads each file under its bare filename. -/
def upload_files_to_s3 (upFaults : Str → Option Str) (bucket : S3State)
    (files : List (Str × Str)) : UploadResult :=
  let out := uploadLoop upFaults files bucket [] []
  if out.2.1.isEmpty then
    ⟨out.1, out.2.1, out.2.2, true, "No need to upload. Files already exist.".data⟩
  else
    ⟨out.1, out.2.1, out.2.2, true, "Uploaded files: ".data ++ joinComma out.2.1⟩

/-- One SNS subscription as returned by `list_subscriptions_by_topic`. -/
structure Subscription where
  protocol : Str
  endpoint : Str
  arn : Str
deriving DecidableEq

/-- The loop test `subscription['Protocol'] == 'email' and
subscription['Endpoint'] == email_address`. -/
def subMatches (email : Str) (s : Subscription) : Bool :=
  s.protocol == "email".data && s.endpoint == email

/-- `subscription['SubscriptionArn'].endswith('PendingConfirmation')`. -/
def isPendingArn (a : Str) : Bool :=
  ("PendingConfirmation".data).isSuffixOf a

/-- `subscribe_email_to_topic(topic_arn, email_address)` from
`sns_manager.py`, fault-free path, as a function of the subscription list
the topic reports: the first matching email subscription yields
`(True, 'Pending confirmation')` if its ARN is pending, else
`(True, None)`; with no match the function calls `sns_client.subscribe`
and returns `(True, None)`. -/
def subscribe_email_to_topic (subs : List Subscription) (email : Str) :
    Bool × Option Str :=
  match subs.find? (subMatches email) with
  | some s =>
    if isPendingArn s.arn then (true, some "Pending confirmation".data)
    else (true, none)
  | none => (true, none)

/-- Whether `subscribe_email_to_topic` issues a new `subscribe` request
(the side effect of the no-match branch). -/
def subscribeRequested (subs : List Subscription) (email : Str) : Bool :=
  (subs.find? (subMatches email)).isNone

/-! ### Basic lemmas about the bucket primitives -/

theorem lookupAssoc_eraseAssoc (l : List (Str × Str)) (k k' : Str) :
    lookupAssoc (eraseAssoc l k) k' = if k' = k then none else lookupAssoc l k' := by
  induction l with
  | nil => simp [eraseAssoc, lookupAssoc]
  | cons p rest ih =>
    simp only [eraseAssoc, lookupAssoc]
    by_cases hp : p.1 = k <;> by_cases hp' : p.1 = k' <;> by_cases h : k' = k <;>
      simp_all [lookupAssoc]

theorem lookupKey_putObject (st : S3State) (k v k' : Str) :
    lookupKey (putObject st k v) k' = if k' = k then some v else lookupKey st k' := by
  unfold lookupKey putObject
  simp only [lookupAssoc]
  by_cases h : k' = k
  · simp [h]
  · rw [if_neg (fun he : k = k' => h he.symm), if_neg h, lookupAssoc_eraseAssoc,
      if_neg h]

theorem lookupKey_deleteObject (st : S3State) (k k' : Str) :
    lookupKey (deleteObject st k) k' = if k' = k then none else lookupKey st k' := by
  unfold lookupKey deleteObject
  exact lookupAssoc_eraseAssoc st.objects k k'

theorem lookupKey_copyObject_ne (st : S3State) (src dst k' : Str) (h : k' ≠ dst) :
    lookupKey (copyObject st src dst) k' = lookupKey st k' := by
  unfold copyObject
  cases hs : lookupKey st src with
  | none => rfl
  | some v => simp [lookupKey_putObject, h]

theorem lookupKey_copyObject_self (st : S3State) (src dst : Str) (v : Str)
    (hv : lookupKey st src = some v) :
    lookupKey (copyObject st src dst) dst = some v := by
  unfold copyObject
  simp [hv, lookupKey_putObject]

theorem keyExistsS3_iff (st : S3State) (k : Str) :
    keyExistsS3 st k = true ↔ ∃ v, lookupKey st k = some v := by
  unfold keyExistsS3
  cases h : lookupKey st k <;> simp [Option.isSome]

theorem lookupAssoc_isSome_of_mem (l : List (Str × Str)) (k : Str)
    (h : k ∈ l.map Prod.fst) : ∃ v, lookupAssoc l k = some v := by
  induction l with
  | nil => simp at h
  | cons p rest ih =>
    by_cases hp : p.1 = k
    · exact ⟨p.2, by simp [lookupAssoc, hp]⟩
    · simp only [List.map_cons, List.mem_cons] at h
      rcases h with h | h
      · exact absurd h.symm hp
      · simpa [lookupAssoc, hp] using ih h

theorem lookupKey_isSome_of_mem_listing (st : S3State) (k : Str)
    (h : k ∈ listingOf st) : ∃ v, lookupKey st k = some v :=
  lookupAssoc_isSome_of_mem st.objects k h

/-! ### The owner identifier and destination key -/

theorem splitOnUnderscore_ne_nil (k : Str) : splitOnUnderscore k ≠ [] := by
  cases k with
  | nil => simp [splitOnUnderscore]
  | cons c rest =>
    by_cases h : c = '_'
    · simp [splitOnUnderscore, h]
    · simp only [splitOnUnderscore, if_neg h]
      cases hs : splitOnUnderscore rest <;> simp

theorem srId_eq_takeWhile (k : Str) :
    srId k = k.takeWhile (fun c => !(c == '_')) := by
  induction k with
  | nil => simp [srId, splitOnUnderscore, List.takeWhile]
  | cons c rest ih =>
    by_cases h : c = '_'
    · simp [srId, splitOnUnderscore, h, List.takeWhile]
    · simp only [srId, splitOnUnderscore, if_neg h]
      cases hs : splitOnUnderscore rest with
      | nil => exact absurd hs (splitOnUnderscore_ne_nil rest)
      | cons g gs =>
        have : srId rest = g := by simp [srId, hs]
        simp only [List.headD_cons, List.takeWhile]
        have hc : (!(c == '_')) = true := by simp [h]
        rw [hc]
        simp only [srId, hs, List.headD_cons] at this ih
        simp [ih]

theorem takeWhile_append_of_all (p : Char → Bool) (xs ys : Str)
    (h : ∀ a ∈ xs, p a = true) :
    (xs ++ ys).takeWhile p = xs ++ ys.takeWhile p := by
  induction xs with
  | nil => simp
  | cons a xs ih =>
    have ha : p a = true := h a (by simp)
    simp only [List.cons_append, List.takeWhile, ha]
    simp [ih (fun b hb => h b (by simp [hb]))]

theorem srId_spec (k : Str) :
    ∃ r, k = srId k ++ r ∧ (r = [] ∨ ∃ r2, r = '_' :: r2) ∧
      ∀ c ∈ srId k, (!(c == '_')) = true := by
  rw [srId_eq_takeWhile]
  refine ⟨k.dropWhile (fun c => !(c == '_')), ?_, ?_, ?_⟩
  · exact (List.takeWhile_append_dropWhile _ _).symm
  · cases hd : k.dropWhile (fun c => !(c == '_')) with
    | nil => exact Or.inl rfl
    | cons a r2 =>
      refine Or.inr ⟨r2, ?_⟩
      have := List.head?_dropWhile_not (fun c => !(c == '_')) k
      rw [hd] at this
      simp at this
      simp [this]
  · intro c hc
    exact @List.mem_takeWhile_imp Char (fun c => !(c == '_')) k c hc

theorem newKey_inj (pre k1 k2 : Str) (h : newKey pre k1 = newKey pre k2) :
    k1 = k2 := by
  unfold newKey at h
  rw [List.append_assoc, List.append_assoc] at h
  have h2 : srId k1 ++ '/' :: k1 = srId k2 ++ '/' :: k2 :=
    List.append_cancel_left h
  obtain ⟨r1, hk1, hr1, hs1⟩ := srId_spec k1
  obtain ⟨r2, hk2, hr2, hs2⟩ := srId_spec k2
  set s1 := srId k1 with hs1d
  set s2 := srId k2 with hs2d
  -- compute the underscore-free prefix of both sides of h2
  have ht1 : (s1 ++ '/' :: k1).takeWhile (fun c => !(c == '_'))
      = s1 ++ '/' :: s1 := by
    rw [takeWhile_append_of_all _ _ _ hs1]
    have : ('/' :: k1).takeWhile (fun c => !(c == '_'))
        = '/' :: k1.takeWhile (fun c => !(c == '_')) := by
      simp [List.takeWhile]
    rw [this]
    rw [hk1]
    rw [takeWhile_append_of_all _ _ _ hs1]
    rcases hr1 with h0 | ⟨r2', h0⟩ <;> simp [h0, List.takeWhile]
  have ht2 : (s2 ++ '/' :: k2).takeWhile (fun c => !(c == '_'))
      = s2 ++ '/' :: s2 := by
    rw [takeWhile_append_of_all _ _ _ hs2]
    have : ('/' :: k2).takeWhile (fun c => !(c == '_'))
        = '/' :: k2.takeWhile (fun c => !(c == '_')) := by
      simp [List.takeWhile]
    rw [this]
    rw [hk2]
    rw [takeWhile_append_of_all _ _ _ hs2]
    rcases hr2 with h0 | ⟨r2', h0⟩ <;> simp [h0, List.takeWhile]
  have heq : s1 ++ '/' :: s1 = s2 ++ '/' :: s2 := by
    rw [← ht1, ← ht2, h2]
  have hlen : s1.length = s2.length := by
    have := congrArg List.length heq
    simp [List.length_append] at this
    omega
  exact List.tail_eq_of_cons_eq (List.append_inj h2 hlen).2

theorem newKey_isPrefixOf (pre k : Str) :
    pre.isPrefixOf (newKey pre k) = true := by
  rw [List.isPrefixOf_iff_prefix]
  unfold newKey
  rw [List.append_assoc]
  exact List.prefix_append pre _

/-! ### Lemmas about the relocation records -/

/-- The original keys of the copy calls in a trace whose owner is `sr`, in
trace order. -/
def copiesOf (sr : Str) (tr : List S3Op) : List Str :=
  tr.filterMap fun op =>
    match op with
    | S3Op.copy src _ => if srId src = sr then some src else none
    | _ => none

theorem recLookup_recAppend (recs : List (Str × List Str)) (s k sr : Str) :
    recLookup (recAppend recs s k) sr
      = recLookup recs sr ++ (if s = sr then [k] else []) := by
  induction recs with
  | nil =>
    by_cases h : s = sr <;> simp [recAppend, recLookup, h]
  | cons p rest ih =>
    obtain ⟨a, fs⟩ := p
    by_cases ha : a = s
    · subst ha
      by_cases h : a = sr
      · subst h
        simp [recAppend, recLookup]
      · simp [recAppend, recLookup, h]
    · by_cases h : a = sr
      · subst h
        have hs : ¬ s = a := fun he => ha he.symm
        simp [recAppend, if_neg (fun he : a = s => ha he), recLookup, hs]
      · simp [recAppend, if_neg (fun he : a = s => ha he), recLookup, h, ih]

theorem recAppend_map_fst (recs : List (Str × List Str)) (s k : Str) :
    (recAppend recs s k).map Prod.fst
      = if s ∈ recs.map Prod.fst then recs.map Prod.fst
        else recs.map Prod.fst ++ [s] := by
  induction recs with
  | nil => simp [recAppend]
  | cons p rest ih =>
    obtain ⟨a, fs⟩ := p
    by_cases ha : a = s
    · subst ha
      simp [recAppend]
    · have hne : ¬ s = a := fun he => ha he.symm
      by_cases hm : s ∈ rest.map Prod.fst <;>
        simp [recAppend, ha, ih, hm, hne]

theorem recAppend_nodup (recs : List (Str × List Str)) (s k : Str)
    (h : (recs.map Prod.fst).Nodup) :
    ((recAppend recs s k).map Prod.fst).Nodup := by
  rw [recAppend_map_fst]
  by_cases hm : s ∈ recs.map Prod.fst
  · simpa [hm] using h
  · simp only [hm, if_false]
    rw [List.nodup_append]
    exact ⟨h, List.nodup_singleton s, by simpa using hm⟩

theorem recAppend_ne_nil (recs : List (Str × List Str)) (s k : Str)
    (h : ∀ p ∈ recs, p.2 ≠ []) :
    ∀ p ∈ recAppend recs s k, p.2 ≠ [] := by
  induction recs with
  | nil =>
    intro p hp
    simp [recAppend] at hp
    simp [hp]
  | cons q rest ih =>
    intro p hp
    obtain ⟨a, fs⟩ := q
    simp only [recAppend] at hp
    by_cases ha : a = s
    · rw [if_pos ha] at hp
      rcases List.mem_cons.mp hp with h1 | h1
      · subst h1
        simp
      · exact h _ (List.mem_cons_of_mem _ h1)
    · rw [if_neg ha] at hp
      rcases List.mem_cons.mp hp with h1 | h1
      · subst h1
        exact h (a, fs) (by simp)
      · exact ih (fun q hq => h q (List.mem_cons_of_mem _ hq)) p h1

theorem recLookup_of_nodup_mem (recs : List (Str × List Str)) (sr : Str)
    (fs : List Str) (hnd : (recs.map Prod.fst).Nodup) (hm : (sr, fs) ∈ recs) :
    recLookup recs sr = fs := by
  induction recs with
  | nil => simp at hm
  | cons p rest ih =>
    obtain ⟨a, gs⟩ := p
    simp only [List.map_cons, List.nodup_cons] at hnd
    rcases List.mem_cons.mp hm with hp | hp
    · injection hp with h1 h2
      subst h1; subst h2
      simp [recLookup]
    · have ha : a ≠ sr := by
        intro he
        subst he
        exact hnd.1 (List.mem_map.mpr ⟨(a, fs), hp, rfl⟩)
      simpa [recLookup, ha] using ih hnd.2 hp

theorem recLookup_eq_nil_of_not_mem :
    ∀ (recs : List (Str × List Str)) (sr : Str),
      sr ∉ recs.map Prod.fst → recLookup recs sr = [] := by
  intro recs
  induction recs with
  | nil => intro sr h; rfl
  | cons p rest ih =>
    intro sr h
    simp only [List.map_cons, List.mem_cons] at h
    push_neg at h
    simp only [recLookup, if_neg (fun he : p.1 = sr => h.1 he.symm)]
    exact ih sr h.2

theorem mem_recLookup_ne_nil (recs : List (Str × List Str)) (sr : Str)
    (hnd : (recs.map Prod.fst).Nodup) (hne : ∀ p ∈ recs, p.2 ≠ []) :
    (sr ∈ recs.map Prod.fst ↔ recLookup recs sr ≠ []) := by
  constructor
  · intro h
    obtain ⟨p, hp, hpe⟩ := List.mem_map.mp h
    obtain ⟨a, fs⟩ := p
    simp only at hpe
    have hp' : (sr, fs) ∈ recs := by rw [← hpe]; exact hp
    rw [recLookup_of_nodup_mem recs sr fs hnd hp']
    exact hne (sr, fs) hp'
  · intro h
    by_contra hm
    exact h (recLookup_eq_nil_of_not_mem recs sr hm)

/-! ### Lemmas about the reorganizer loop -/

theorem runKeys_err_none (faults : Str → Option Str) (pre : Str)
    (hff : ∀ d, faults d = none) :
    ∀ (ks : List Str) (st : S3State) (recs : List (Str × List Str)),
      (runKeys faults pre ks st recs).err = none := by
  intro ks
  induction ks with
  | nil => intro st recs; rfl
  | cons k rest ih =>
    intro st recs
    cases hpb : pre.isPrefixOf k with
    | true => simp [runKeys, hpb, ih]
    | false =>
      cases heb : keyExistsS3 st (newKey pre k) with
      | true => simp [runKeys, hpb, hff, heb, ih]
      | false => simp [runKeys, hpb, hff, heb, ih]

theorem runKeys_skipAll (faults : Str → Option Str) (pre : Str) :
    ∀ (ks : List Str) (st : S3State) (recs : List (Str × List Str)),
      (∀ k ∈ ks, pre.isPrefixOf k = true) →
      runKeys faults pre ks st recs = ⟨st, recs, [], none⟩ := by
  intro ks
  induction ks with
  | nil => intro st recs _; rfl
  | cons k rest ih =>
    intro st recs h
    have hk := h k (by simp)
    simp only [runKeys, hk, if_true]
    exact ih st recs (fun k2 hk2 => h k2 (List.mem_cons_of_mem _ hk2))

theorem runKeys_recLookup (faults : Str → Option Str) (pre : Str) :
    ∀ (ks : List Str) (st : S3State) (recs : List (Str × List Str)) (sr : Str),
      recLookup (runKeys faults pre ks st recs).recs sr
        = recLookup recs sr ++ copiesOf sr (runKeys faults pre ks st recs).trace := by
  intro ks
  induction ks with
  | nil => intro st recs sr; simp [runKeys, copiesOf]
  | cons k rest ih =>
    intro st recs sr
    cases hpb : pre.isPrefixOf k with
    | true => simp [runKeys, hpb, ih]
    | false =>
      cases hf : faults (newKey pre k) with
      | some e => simp [runKeys, hpb, hf, copiesOf]
      | none =>
        cases heb : keyExistsS3 st (newKey pre k) with
        | true => simp [runKeys, hpb, hf, heb, copiesOf, ih]
        | false =>
          simp only [runKeys, hpb, hf, heb, Bool.false_eq_true, if_false, if_true]
          simp only [copiesOf, List.filterMap_cons]
          simp only [ih, recLookup_recAppend]
          by_cases hs : srId k = sr <;> simp [hs, copiesOf]

theorem runKeys_recs_nodup (faults : Str → Option Str) (pre : Str) :
    ∀ (ks : List Str) (st : S3State) (recs : List (Str × List Str)),
      (recs.map Prod.fst).Nodup →
      ((runKeys faults pre ks st recs).recs.map Prod.fst).Nodup := by
  intro ks
  induction ks with
  | nil => intro st recs h; exact h
  | cons k rest ih =>
    intro st recs h
    cases hpb : pre.isPrefixOf k with
    | true => simpa [runKeys, hpb] using ih st recs h
    | false =>
      cases hf : faults (newKey pre k) with
      | some e => simpa [runKeys, hpb, hf] using h
      | none =>
        cases heb : keyExistsS3 st (newKey pre k) with
        | true => simpa [runKeys, hpb, hf, heb] using ih _ recs h
        | false =>
          simpa [runKeys, hpb, hf, heb] using
            ih _ _ (recAppend_nodup recs (srId k) k h)

theorem runKeys_recs_ne_nil (faults : Str → Option Str) (pre : Str) :
    ∀ (ks : List Str) (st : S3State) (recs : List (Str × List Str)),
      (∀ p ∈ recs, p.2 ≠ []) →
      ∀ p ∈ (runKeys faults pre ks st recs).recs, p.2 ≠ [] := by
  intro ks
  induction ks with
  | nil => intro st recs h; exact h
  | cons k rest ih =>
    intro st recs h
    cases hpb : pre.isPrefixOf k with
    | true => simpa [runKeys, hpb] using ih st recs h
    | false =>
      cases hf : faults (newKey pre k) with
      | some e => simpa [runKeys, hpb, hf] using h
      | none =>
        cases heb : keyExistsS3 st (newKey pre k) with
        | true => simpa [runKeys, hpb, hf, heb] using ih _ recs h
        | false =>
          simpa [runKeys, hpb, hf, heb] using
            ih _ _ (recAppend_ne_nil recs (srId k) k h)

theorem runKeys_applyTrace (faults : Str → Option Str) (pre : Str) :
    ∀ (ks : List Str) (st : S3State) (recs : List (Str × List Str)),
      applyTrace st (runKeys faults pre ks st recs).trace
        = (runKeys faults pre ks st recs).state := by
  intro ks
  induction ks with
  | nil => intro st recs; rfl
  | cons k rest ih =>
    intro st recs
    cases hpb : pre.isPrefixOf k with
    | true => simp [runKeys, hpb, ih]
    | false =>
      cases hf : faults (newKey pre k) with
      | some e => simp [runKeys, hpb, hf, applyTrace, applyOp]
      | none =>
        cases heb : keyExistsS3 st (newKey pre k) with
        | true =>
          simp only [runKeys, hpb, hf, heb, Bool.false_eq_true, if_false, if_true,
            applyTrace, List.foldl_cons, applyOp]
          exact ih _ _
        | false =>
          simp only [runKeys, hpb, hf, heb, Bool.false_eq_true, if_false, if_true,
            applyTrace, List.foldl_cons, applyOp]
          exact ih _ _

/-- What a recorded call may look like when the loop processed `ks`:
deletes hit only listed, out-of-place keys; every copy goes from a listed,
out-of-place key to its destination key. -/
def opFromKeys (pre : Str) (ks : List Str) : S3Op → Prop
  | S3Op.head _ => True
  | S3Op.copy s d => s ∈ ks ∧ pre.isPrefixOf s = false ∧ d = newKey pre s
  | S3Op.del k => k ∈ ks ∧ pre.isPrefixOf k = false

theorem opFromKeys_mono (pre : Str) (k : Str) (ks : List Str) (op : S3Op)
    (h : opFromKeys pre ks op) : opFromKeys pre (k :: ks) op := by
  cases op with
  | head _ => trivial
  | copy s d => exact ⟨List.mem_cons_of_mem _ h.1, h.2.1, h.2.2⟩
  | del k2 => exact ⟨List.mem_cons_of_mem _ h.1, h.2⟩

theorem runKeys_ops_shape (faults : Str → Option Str) (pre : Str) :
    ∀ (ks : List Str) (st : S3State) (recs : List (Str × List Str)),
      ∀ op ∈ (runKeys faults pre ks st recs).trace, opFromKeys pre ks op := by
  intro ks
  induction ks with
  | nil => intro st recs op hop; simp [runKeys] at hop
  | cons k rest ih =>
    intro st recs op hop
    cases hpb : pre.isPrefixOf k with
    | true =>
      rw [show runKeys faults pre (k :: rest) st recs
          = runKeys faults pre rest st recs by simp [runKeys, hpb]] at hop
      exact opFromKeys_mono pre k rest op (ih st recs op hop)
    | false =>
      cases hf : faults (newKey pre k) with
      | some e =>
        simp [runKeys, hpb, hf] at hop
        simp [hop, opFromKeys]
      | none =>
        cases heb : keyExistsS3 st (newKey pre k) with
        | true =>
          simp only [runKeys, hpb, hf, heb] at hop
          simp only [Bool.false_eq_true, if_false, if_true, List.mem_cons] at hop
          rcases hop with hop | hop | hop
          · simp [hop, opFromKeys]
          · simp [hop, opFromKeys, hpb]
          · exact opFromKeys_mono pre k rest op (ih _ recs op hop)
        | false =>
          simp only [runKeys, hpb, hf, heb] at hop
          simp only [Bool.false_eq_true, if_false, if_true, List.mem_cons] at hop
          rcases hop with hop | hop | hop | hop
          · simp [hop, opFromKeys]
          · simp [hop, opFromKeys, hpb]
          · simp [hop, opFromKeys, hpb]
          · exact opFromKeys_mono pre k rest op (ih _ _ op hop)

theorem runKeys_append (faults : Str → Option Str) (pre : Str) :
    ∀ (ks1 ks2 : List Str) (st : S3State) (recs : List (Str × List Str))
      (st1 : S3State) (recs1 : List (Str × List Str)) (tr1 : List S3Op),
      runKeys faults pre ks1 st recs = ⟨st1, recs1, tr1, none⟩ →
      runKeys faults pre (ks1 ++ ks2) st recs
        = ⟨(runKeys faults pre ks2 st1 recs1).state,
           (runKeys faults pre ks2 st1 recs1).recs,
           tr1 ++ (runKeys faults pre ks2 st1 recs1).trace,
           (runKeys faults pre ks2 st1 recs1).err⟩ := by
  intro ks1
  induction ks1 with
  | nil =>
    intro ks2 st recs st1 recs1 tr1 h
    simp only [runKeys] at h
    injection h with h1 h2 h3 _
    subst h1; subst h2; subst h3
    simp
  | cons k rest ih =>
    intro ks2 st recs st1 recs1 tr1 h
    cases hpb : pre.isPrefixOf k with
    | true =>
      rw [show runKeys faults pre (k :: rest) st recs
          = runKeys faults pre rest st recs by simp [runKeys, hpb]] at h
      rw [List.cons_append,
        show runKeys faults pre (k :: (rest ++ ks2)) st recs
          = runKeys faults pre (rest ++ ks2) st recs by simp [runKeys, hpb]]
      exact ih ks2 st recs st1 recs1 tr1 h
    | false =>
      cases hf : faults (newKey pre k) with
      | some e =>
        simp [runKeys, hpb, hf] at h
      | none =>
        cases heb : keyExistsS3 st (newKey pre k) with
        | true =>
          cases hr : runKeys faults pre rest (deleteObject st k) recs with
          | mk s2 r2 t2 e2 =>
            have hstep : runKeys faults pre (k :: rest) st recs
                = ⟨s2, r2, S3Op.head (newKey pre k) :: S3Op.del k :: t2, e2⟩ := by
              simp [runKeys, hpb, hf, heb, hr]
            rw [hstep] at h
            injection h with h1 h2 h3 h4
            subst h1; subst h2; subst h4
            have hstep2 : runKeys faults pre (k :: (rest ++ ks2)) st recs
                = ⟨(runKeys faults pre (rest ++ ks2) (deleteObject st k) recs).state,
                   (runKeys faults pre (rest ++ ks2) (deleteObject st k) recs).recs,
                   S3Op.head (newKey pre k) :: S3Op.del k ::
                     (runKeys faults pre (rest ++ ks2) (deleteObject st k) recs).trace,
                   (runKeys faults pre (rest ++ ks2) (deleteObject st k) recs).err⟩ := by
              simp [runKeys, hpb, hf, heb]
            rw [List.cons_append, hstep2, ih ks2 _ recs _ _ t2 hr, ← h3]
            simp
        | false =>
          cases hr : runKeys faults pre rest
              (deleteObject (copyObject st k (newKey pre k)) k)
              (recAppend recs (srId k) k) with
          | mk s2 r2 t2 e2 =>
            have hstep : runKeys faults pre (k :: rest) st recs
                = ⟨s2, r2, S3Op.head (newKey pre k) :: S3Op.copy k (newKey pre k) ::
                    S3Op.del k :: t2, e2⟩ := by
              simp [runKeys, hpb, hf, heb, hr]
            rw [hstep] at h
            injection h with h1 h2 h3 h4
            subst h1; subst h2; subst h4
            have hstep2 : runKeys faults pre (k :: (rest ++ ks2)) st recs
                = ⟨(runKeys faults pre (rest ++ ks2)
                      (deleteObject (copyObject st k (newKey pre k)) k)
                      (recAppend recs (srId k) k)).state,
                   (runKeys faults pre (rest ++ ks2)
                      (deleteObject (copyObject st k (newKey pre k)) k)
                      (recAppend recs (srId k) k)).recs,
                   S3Op.head (newKey pre k) :: S3Op.copy k (newKey pre k) ::
                     S3Op.del k ::
                     (runKeys faults pre (rest ++ ks2)
                        (deleteObject (copyObject st k (newKey pre k)) k)
                        (recAppend recs (srId k) k)).trace,
                   (runKeys faults pre (rest ++ ks2)
                      (deleteObject (copyObject st k (newKey pre k)) k)
                      (recAppend recs (srId k) k)).err⟩ := by
              simp [runKeys, hpb, hf, heb]
            rw [List.cons_append, hstep2, ih ks2 _ _ _ _ t2 hr, ← h3]
            simp

/-! ### Preservation of keys along a trace -/

/-- Calls that cannot change what is stored at key `d`. -/
def opPreservesKey (d : Str) : S3Op → Prop
  | S3Op.head _ => True
  | S3Op.copy _ dst => dst ≠ d
  | S3Op.del k => k ≠ d

theorem applyTrace_preserves (d : Str) :
    ∀ (tr : List S3Op) (st : S3State),
      (∀ op ∈ tr, opPreservesKey d op) →
      lookupKey (applyTrace st tr) d = lookupKey st d := by
  intro tr
  induction tr with
  | nil => intro st _; rfl
  | cons op tr ih =>
    intro st h
    have hop := h op (by simp)
    have hrest : ∀ op2 ∈ tr, opPreservesKey d op2 :=
      fun op2 h2 => h op2 (List.mem_cons_of_mem _ h2)
    show lookupKey (applyTrace (applyOp st op) tr) d = lookupKey st d
    rw [ih (applyOp st op) hrest]
    cases op with
    | head _ => rfl
    | copy s dst =>
      show lookupKey (copyObject st s dst) d = lookupKey st d
      exact lookupKey_copyObject_ne st s dst d (Ne.symm hop)
    | del k =>
      show lookupKey (deleteObject st k) d = lookupKey st d
      rw [lookupKey_deleteObject]
      exact if_neg (fun he => hop he.symm)

/-- Calls that cannot make key `d` disappear. -/
def opKeepsKey (d : Str) : S3Op → Prop
  | S3Op.del k => k ≠ d
  | _ => True

theorem applyTrace_keeps (d : Str) :
    ∀ (tr : List S3Op) (st : S3State),
      (∀ op ∈ tr, opKeepsKey d op) →
      keyExistsS3 st d = true → keyExistsS3 (applyTrace st tr) d = true := by
  intro tr
  induction tr with
  | nil => intro st _ h; exact h
  | cons op tr ih =>
    intro st h hex
    have hop := h op (by simp)
    have hrest : ∀ op2 ∈ tr, opKeepsKey d op2 :=
      fun op2 h2 => h op2 (List.mem_cons_of_mem _ h2)
    show keyExistsS3 (applyTrace (applyOp st op) tr) d = true
    refine ih (applyOp st op) hrest ?_
    cases op with
    | head _ => exact hex
    | del k =>
      show keyExistsS3 (deleteObject st k) d = true
      rw [keyExistsS3_iff] at hex ⊢
      obtain ⟨v, hv⟩ := hex
      refine ⟨v, ?_⟩
      rw [lookupKey_deleteObject]
      rw [if_neg (fun he => hop he.symm)]
      exact hv
    | copy s dst =>
      show keyExistsS3 (copyObject st s dst) d = true
      rw [keyExistsS3_iff] at hex ⊢
      obtain ⟨v, hv⟩ := hex
      unfold copyObject
      cases hs : lookupKey st s with
      | none => exact ⟨v, hv⟩
      | some w =>
        rw [lookupKey_putObject]
        by_cases hd : d = dst
        · exact ⟨w, if_pos hd⟩
        · exact ⟨v, by rw [if_neg hd]; exact hv⟩

/-! ### Unfolding `move_and_clean_s3_objects` -/

theorem move_components (faults : Str → Option Str) (pre : Str) (st : S3State)
    (h : (runKeys faults pre (listingOf st) st []).err = none) :
    (move_and_clean_s3_objects none faults pre st).state
        = (runKeys faults pre (listingOf st) st []).state
    ∧ (move_and_clean_s3_objects none faults pre st).trace
        = (runKeys faults pre (listingOf st) st []).trace
    ∧ (move_and_clean_s3_objects none faults pre st).ok = true
    ∧ (move_and_clean_s3_objects none faults pre st).notifs
        = (runKeys faults pre (listingOf st) st []).recs.map
            (fun p => ⟨mkSubject p.1, mkMessage p.1 p.2⟩) := by
  cases ho : runKeys faults pre (listingOf st) st [] with
  | mk s r t e =>
    rw [ho] at h
    simp only at h
    subst h
    simp only [move_and_clean_s3_objects, ho]
    by_cases hr : r.isEmpty
    · rw [List.isEmpty_iff] at hr
      subst hr
      simp
    · simp [hr]

theorem move_components_err (faults : Str → Option Str) (pre : Str)
    (st : S3State) (e : Str)
    (h : (runKeys faults pre (listingOf st) st []).err = some e) :
    move_and_clean_s3_objects none faults pre st
      = ⟨(runKeys faults pre (listingOf st) st []).state, [],
         (runKeys faults pre (listingOf st) st []).trace, false, awsErrMsg e⟩ := by
  cases ho : runKeys faults pre (listingOf st) st [] with
  | mk s r t e2 =>
    rw [ho] at h
    simp only at h
    subst h
    simp [move_and_clean_s3_objects, ho]

/-! ### After a fault-free run every key is under the destination directory -/

theorem mem_eraseAssoc (l : List (Str × Str)) (k : Str) (p : Str × Str)
    (h : p ∈ eraseAssoc l k) : p ∈ l ∧ p.1 ≠ k := by
  induction l with
  | nil => simp [eraseAssoc] at h
  | cons q rest ih =>
    simp only [eraseAssoc] at h
    by_cases hq : q.1 = k
    · rw [if_pos hq] at h
      exact ⟨List.mem_cons_of_mem _ (ih h).1, (ih h).2⟩
    · rw [if_neg hq] at h
      rcases List.mem_cons.mp h with h1 | h1
      · subst h1
        exact ⟨by simp, hq⟩
      · exact ⟨List.mem_cons_of_mem _ (ih h1).1, (ih h1).2⟩

theorem mem_putObject (st : S3State) (k v : Str) (p : Str × Str)
    (h : p ∈ (putObject st k v).objects) :
    p = (k, v) ∨ (p ∈ st.objects ∧ p.1 ≠ k) := by
  simp only [putObject, List.mem_cons] at h
  rcases h with h | h
  · exact Or.inl h
  · exact Or.inr (mem_eraseAssoc st.objects k p h)

theorem mem_copyObject (st : S3State) (s d : Str) (p : Str × Str)
    (h : p ∈ (copyObject st s d).objects) :
    p.1 = d ∨ p ∈ st.objects := by
  unfold copyObject at h
  cases hs : lookupKey st s with
  | none => rw [hs] at h; exact Or.inr h
  | some v =>
    rw [hs] at h
    rcases mem_putObject st d v p h with h1 | h1
    · exact Or.inl (by rw [h1])
    · exact Or.inr h1.1

theorem runKeys_state_mem (faults : Str → Option Str) (pre : Str)
    (hff : ∀ d, faults d = none) :
    ∀ (ks : List Str) (st : S3State) (recs : List (Str × List Str)),
      ∀ p ∈ (runKeys faults pre ks st recs).state.objects,
        pre.isPrefixOf p.1 = true ∨ (p ∈ st.objects ∧ p.1 ∉ ks) := by
  intro ks
  induction ks with
  | nil =>
    intro st recs p hp
    exact Or.inr ⟨hp, by simp⟩
  | cons k rest ih =>
    intro st recs p hp
    cases hpb : pre.isPrefixOf k with
    | true =>
      rw [show runKeys faults pre (k :: rest) st recs
          = runKeys faults pre rest st recs by simp [runKeys, hpb]] at hp
      rcases ih st recs p hp with h1 | ⟨h1, h2⟩
      · exact Or.inl h1
      · by_cases hk : p.1 = k
        · exact Or.inl (hk ▸ hpb)
        · exact Or.inr ⟨h1, by simp [hk, h2]⟩
    | false =>
      cases heb : keyExistsS3 st (newKey pre k) with
      | true =>
        rw [show (runKeys faults pre (k :: rest) st recs).state
            = (runKeys faults pre rest (deleteObject st k) recs).state by
          simp [runKeys, hpb, hff, heb]] at hp
        rcases ih _ recs p hp with h1 | ⟨h1, h2⟩
        · exact Or.inl h1
        · obtain ⟨h3, h4⟩ := mem_eraseAssoc st.objects k p h1
          exact Or.inr ⟨h3, by simp [h4, h2]⟩
      | false =>
        rw [show (runKeys faults pre (k :: rest) st recs).state
            = (runKeys faults pre rest
                (deleteObject (copyObject st k (newKey pre k)) k)
                (recAppend recs (srId k) k)).state by
          simp [runKeys, hpb, hff, heb]] at hp
        rcases ih _ _ p hp with h1 | ⟨h1, h2⟩
        · exact Or.inl h1
        · obtain ⟨h3, h4⟩ := mem_eraseAssoc _ k p h1
          rcases mem_copyObject st k (newKey pre k) p h3 with h5 | h5
          · exact Or.inl (h5 ▸ newKey_isPrefixOf pre k)
          · exact Or.inr ⟨h5, by simp [h4, h2]⟩

theorem move_state_all_prefixed (pre : Str) (st : S3State) :
    ∀ p ∈ (move_and_clean_s3_objects none noFaults pre st).state.objects,
      pre.isPrefixOf p.1 = true := by
  intro p hp
  have herr := runKeys_err_none noFaults pre (fun _ => rfl) (listingOf st) st []
  rw [(move_components noFaults pre st herr).1] at hp
  rcases runKeys_state_mem noFaults pre (fun _ => rfl) (listingOf st) st [] p hp
    with h1 | ⟨h1, h2⟩
  · exact h1
  · exact absurd (List.mem_map.mpr ⟨p, h1, rfl⟩) h2

/-! ### Claims -/

/-- C1: for every bucket state in which every listed key already starts
with the destination directory (in particular any state produced by a
fault-free reorganize run, second conjunct), reorganize performs no S3
calls at all (so no copies and no deletes), publishes zero notifications,
and returns `(True, "No files were moved or deleted.")`, which differs
from the relocated-files success message. -/
theorem c1_reorganize_idempotent (pre : Str) :
    (∀ (st : S3State) (faults : Str → Option Str),
      (∀ k ∈ listingOf st, pre.isPrefixOf k = true) →
      move_and_clean_s3_objects none faults pre st
        = ⟨st, [], [], true, "No files were moved or deleted.".data⟩)
    ∧ "No files were moved or deleted.".data
        ≠ "Files successfully moved and notifications sent.".data
    ∧ (∀ st : S3State,
        ∀ k ∈ listingOf (move_and_clean_s3_objects none noFaults pre st).state,
          pre.isPrefixOf k = true) := by
  refine ⟨?_, by decide, ?_⟩
  · intro st faults hall
    have hrun := runKeys_skipAll faults pre (listingOf st) st [] hall
    simp [move_and_clean_s3_objects, hrun]
  · intro st k hk
    obtain ⟨p, hp, he⟩ := List.mem_map.mp hk
    exact he ▸ move_state_all_prefixed pre st p hp

theorem c1_reorganize_idempotent_witness :
    move_and_clean_s3_objects none noFaults "dct-sales/".data
        ⟨[("dct-sales/sr1/sr1_x.csv".data, "v".data)]⟩
      = ⟨⟨[("dct-sales/sr1/sr1_x.csv".data, "v".data)]⟩, [], [], true,
         "No files were moved or deleted.".data⟩ :=
  (c1_reorganize_idempotent "dct-sales/".data).1
    ⟨[("dct-sales/sr1/sr1_x.csv".data, "v".data)]⟩ noFaults (by decide)

/-- C9: a key without an underscore is its own owner identifier
(`split('_')[0]` returns the whole string), and for every key of the form
`<owner>_<rest>` — an underscore-free owner, an underscore, then any
remainder — the destination key is the destination directory, the owner,
a slash, then the whole original key (so `"sr7_jan.csv"` goes to
`<prefix>sr7/sr7_jan.csv`). -/
theorem c9_owner_and_destination :
    (∀ k : Str, (∀ c ∈ k, c ≠ '_') → srId k = k)
    ∧ (∀ (pre owner rest : Str), (∀ c ∈ owner, c ≠ '_') →
        newKey pre (owner ++ '_' :: rest)
          = pre ++ owner ++ '/' :: (owner ++ '_' :: rest)) := by
  constructor
  · intro k h
    rw [srId_eq_takeWhile]
    have := takeWhile_append_of_all (fun c => !(c == '_')) k []
      (fun a ha => by simp [h a ha])
    simpa using this
  · intro pre owner rest h
    have hsr : srId (owner ++ '_' :: rest) = owner := by
      rw [srId_eq_takeWhile,
        takeWhile_append_of_all (fun c => !(c == '_')) owner ('_' :: rest)
          (fun a ha => by simp [h a ha])]
      simp [List.takeWhile]
    show pre ++ srId (owner ++ '_' :: rest) ++ '/' :: (owner ++ '_' :: rest)
        = pre ++ owner ++ '/' :: (owner ++ '_' :: rest)
    rw [hsr]

theorem c9_owner_and_destination_witness :
    srId "abc.csv".data = "abc.csv".data
    ∧ newKey "dct-sales/".data ("sr7".data ++ '_' :: "jan.csv".data)
        = "dct-sales/".data ++ "sr7".data
            ++ '/' :: ("sr7".data ++ '_' :: "jan.csv".data) :=
  ⟨c9_owner_and_destination.1 "abc.csv".data (by decide),
   c9_owner_and_destination.2 "dct-sales/".data "sr7".data "jan.csv".data
     (by decide)⟩

/-- C6: the log shipper stores, at the log key, the previously stored
content (the empty string when the key was absent) followed by the new
local content, and returns `(True, None)`; hence shipping `"A"` then
`"B"` against an initially empty log key stores `"AB"`. -/
theorem c6_log_shipping_concat :
    (∀ (st : S3State) (k newLog : Str),
      lookupKey (upload_log_to_s3 st k newLog).1 k
          = some ((lookupKey st k).getD [] ++ newLog)
      ∧ (upload_log_to_s3 st k newLog).2 = (true, none))
    ∧ (∀ (st : S3State) (k a b : Str), lookupKey st k = none →
        lookupKey (upload_log_to_s3 (upload_log_to_s3 st k a).1 k b).1 k
          = some (a ++ b)) := by
  constructor
  · intro st k newLog
    refine ⟨?_, rfl⟩
    show lookupKey (putObject st k _) k = _
    rw [lookupKey_putObject, if_pos rfl]
  · intro st k a b h
    unfold upload_log_to_s3
    simp only
    rw [lookupKey_putObject, if_pos rfl, lookupKey_putObject, if_pos rfl]
    simp [h]

theorem c6_log_shipping_concat_witness :
    lookupKey (upload_log_to_s3
        (upload_log_to_s3 ⟨[]⟩ "dct-sales/application_logs.log".data "A".data).1
        "dct-sales/application_logs.log".data "B".data).1
        "dct-sales/application_logs.log".data
      = some ("A".data ++ "B".data) :=
  c6_log_shipping_concat.2 ⟨[]⟩ "dct-sales/application_logs.log".data
    "A".data "B".data rfl

theorem uploadLoop_errors (upFaults : Str → Option Str) :
    ∀ (files : List (Str × Str)) (st : S3State) (ups errs : List Str),
      ∀ m ∈ (uploadLoop upFaults files st ups errs).2.2,
        m ∈ errs ∨ ∃ fn e, fn ∈ files.map Prod.fst ∧ upFaults fn = some e
          ∧ m = uploadFailMsg fn e := by
  intro files
  induction files with
  | nil => intro st ups errs m hm; exact Or.inl hm
  | cons f rest ih =>
    intro st ups errs m hm
    obtain ⟨fn, bytes⟩ := f
    have weaken : ∀ m,
        (m ∈ errs ∨ ∃ fn2 e, fn2 ∈ rest.map Prod.fst ∧ upFaults fn2 = some e
          ∧ m = uploadFailMsg fn2 e) →
        (m ∈ errs ∨ ∃ fn2 e, fn2 ∈ ((fn, bytes) :: rest).map Prod.fst
          ∧ upFaults fn2 = some e ∧ m = uploadFailMsg fn2 e) := by
      intro m2 h2
      rcases h2 with h2 | ⟨fn2, e, h3, h4, h5⟩
      · exact Or.inl h2
      · exact Or.inr ⟨fn2, e, by simp [List.mem_cons_of_mem, h3], h4, h5⟩
    cases hcsv : (".csv".data).isSuffixOf fn with
    | false =>
      rw [show uploadLoop upFaults ((fn, bytes) :: rest) st ups errs
          = uploadLoop upFaults rest st ups errs by simp [uploadLoop, hcsv]] at hm
      exact weaken m (ih st ups errs m hm)
    | true =>
      cases hex : keyExistsS3 st fn with
      | true =>
        rw [show uploadLoop upFaults ((fn, bytes) :: rest) st ups errs
            = uploadLoop upFaults rest st ups errs by
          simp [uploadLoop, hcsv, hex]] at hm
        exact weaken m (ih st ups errs m hm)
      | false =>
        cases hfa : upFaults fn with
        | some e =>
          rw [show uploadLoop upFaults ((fn, bytes) :: rest) st ups errs
              = uploadLoop upFaults rest st ups (errs ++ [uploadFailMsg fn e]) by
            simp [uploadLoop, hcsv, hex, hfa]] at hm
          rcases ih st ups _ m hm with h2 | h2
          · rcases List.mem_append.mp h2 with h3 | h3
            · exact Or.inl h3
            · refine Or.inr ⟨fn, e, by simp, hfa, ?_⟩
              simpa using h3
          · exact weaken m (Or.inr h2)
        | none =>
          rw [show uploadLoop upFaults ((fn, bytes) :: rest) st ups errs
              = uploadLoop upFaults rest (putObject st fn bytes) (ups ++ [fn]) errs by
            simp [uploadLoop, hcsv, hex, hfa]] at hm
          exact weaken m (ih _ _ errs m hm)

/-- C7: whenever the uploader's directory loop completes, the call
reports success — for every bucket, local listing and per-file fault
pattern the returned flag is `True` — and every collected error message
is the per-file message of a file whose upload raised a provider error;
the errors never flip the result. -/
theorem c7_uploader_always_ok (upFaults : Str → Option Str) (bucket : S3State)
    (files : List (Str × Str)) :
    (upload_files_to_s3 upFaults bucket files).ok = true
    ∧ ∀ m ∈ (upload_files_to_s3 upFaults bucket files).errors,
        ∃ fn e, fn ∈ files.map Prod.fst ∧ upFaults fn = some e
          ∧ m = uploadFailMsg fn e := by
  constructor
  · unfold upload_files_to_s3
    by_cases h : (uploadLoop upFaults files bucket [] []).2.1.isEmpty <;> simp [h]
  · intro m hm
    have hm2 : m ∈ (uploadLoop upFaults files bucket [] []).2.2 := by
      unfold upload_files_to_s3 at hm
      by_cases h : (uploadLoop upFaults files bucket [] []).2.1.isEmpty
      · simpa [h] using hm
      · simpa [h] using hm
    rcases uploadLoop_errors upFaults files bucket [] [] m hm2 with h | h
    · simp at h
    · exact h

theorem c7_uploader_always_ok_witness :
    (upload_files_to_s3
        (fun fn => if fn = "a_1.csv".data then some "boom".data else none)
        ⟨[]⟩ [("a_1.csv".data, "v".data)]).ok = true
    ∧ (upload_files_to_s3
        (fun fn => if fn = "a_1.csv".data then some "boom".data else none)
        ⟨[]⟩ [("a_1.csv".data, "v".data)]).errors
        = [uploadFailMsg "a_1.csv".data "boom".data]
    ∧ ∀ m ∈ (upload_files_to_s3
        (fun fn => if fn = "a_1.csv".data then some "boom".data else none)
        ⟨[]⟩ [("a_1.csv".data, "v".data)]).errors,
        ∃ fn e, fn ∈ [("a_1.csv".data, "v".data)].map Prod.fst
          ∧ (fun fn => if fn = "a_1.csv".data then some "boom".data else none) fn
              = some e
          ∧ m = uploadFailMsg fn e :=
  ⟨(c7_uploader_always_ok _ _ _).1, by decide, (c7_uploader_always_ok _ _ _).2⟩

theorem mkSubject_inj (a b : Str) (h : mkSubject a = mkSubject b) : a = b :=
  List.append_cancel_left h

theorem countP_fst_eq_one (sr : Str) :
    ∀ recs : List (Str × List Str), (recs.map Prod.fst).Nodup →
      sr ∈ recs.map Prod.fst →
      recs.countP (fun p => p.1 == sr) = 1 := by
  intro recs
  induction recs with
  | nil => intro _ hm; simp at hm
  | cons p rest ih =>
    intro hnd hm
    simp only [List.map_cons, List.nodup_cons] at hnd
    by_cases hp : p.1 = sr
    · have hz : rest.countP (fun q => q.1 == sr) = 0 := by
        rw [List.countP_eq_zero]
        intro q hq
        simp only [beq_iff_eq]
        intro he
        apply hnd.1
        rw [hp, ← he]
        exact List.mem_map.mpr ⟨q, hq, rfl⟩
      rw [List.countP_cons]
      simp [hp, hz]
    · have hm2 : sr ∈ rest.map Prod.fst := by
        rcases List.mem_cons.mp hm with h1 | h1
        · exact absurd h1.symm hp
        · exact h1
      rw [List.countP_cons]
      simp [hp, ih hnd.2 hm2]

/-- C3: in a fault-free reorganize run, an owner with at least one
relocated key (a copy call in the trace whose source has that owner)
receives exactly one notification; its subject names the owner and its
message lists exactly the relocated original keys of that owner in the
order the copies were issued; an owner with no relocated key receives no
notification. -/
theorem c3_notification_grouping (pre : Str) (st : S3State) (sr : Str) :
    (copiesOf sr (move_and_clean_s3_objects none noFaults pre st).trace ≠ [] →
      (move_and_clean_s3_objects none noFaults pre st).notifs.countP
          (fun n => n.subject == mkSubject sr) = 1
      ∧ ∀ n ∈ (move_and_clean_s3_objects none noFaults pre st).notifs,
          n.subject = mkSubject sr →
          n.message = mkMessage sr
            (copiesOf sr (move_and_clean_s3_objects none noFaults pre st).trace))
    ∧ (copiesOf sr (move_and_clean_s3_objects none noFaults pre st).trace = [] →
        ∀ n ∈ (move_and_clean_s3_objects none noFaults pre st).notifs,
          n.subject ≠ mkSubject sr) := by
  have herr := runKeys_err_none noFaults pre (fun _ => rfl) (listingOf st) st []
  obtain ⟨hst, htr, hok, hnot⟩ := move_components noFaults pre st herr
  have hlook : recLookup (runKeys noFaults pre (listingOf st) st []).recs sr
      = copiesOf sr (runKeys noFaults pre (listingOf st) st []).trace := by
    have := runKeys_recLookup noFaults pre (listingOf st) st [] sr
    simpa [recLookup] using this
  have hnd := runKeys_recs_nodup noFaults pre (listingOf st) st [] (by simp)
  have hnn := runKeys_recs_ne_nil noFaults pre (listingOf st) st [] (by simp)
  constructor
  · intro hmoved
    rw [htr] at hmoved
    have hlne : recLookup (runKeys noFaults pre (listingOf st) st []).recs sr ≠ [] := by
      rw [hlook]; exact hmoved
    have hmem : sr ∈ (runKeys noFaults pre (listingOf st) st []).recs.map Prod.fst :=
      (mem_recLookup_ne_nil _ sr hnd hnn).mpr hlne
    constructor
    · rw [hnot]
      rw [List.countP_map]
      have hpred : ∀ p ∈ (runKeys noFaults pre (listingOf st) st []).recs,
          (((fun n : Notif => n.subject == mkSubject sr) ∘
            (fun p : Str × List Str => (⟨mkSubject p.1, mkMessage p.1 p.2⟩ : Notif))) p
            = true
          ↔ (p.1 == sr) = true) := by
        intro p _
        by_cases hx : p.1 = sr
        · simp [hx]
        · have hne : mkSubject p.1 ≠ mkSubject sr :=
            fun he => hx (mkSubject_inj _ _ he)
          simp [hx, hne]
      rw [List.countP_congr hpred]
      exact countP_fst_eq_one sr _ hnd hmem
    · intro n hn hsub
      rw [hnot] at hn
      obtain ⟨p, hp, hpn⟩ := List.mem_map.mp hn
      have hps : p.1 = sr := by
        apply mkSubject_inj
        rw [← hsub, ← hpn]
      have hp2 : p.2 = copiesOf sr
          (runKeys noFaults pre (listingOf st) st []).trace := by
        rw [← hlook]
        have : p = (sr, p.2) := by
          rw [← hps]
        rw [this] at hp
        exact (recLookup_of_nodup_mem _ sr p.2 hnd hp).symm
      rw [← hpn, htr]
      simp only
      rw [hps, hp2]
  · intro hmoved n hn hsub
    rw [htr] at hmoved
    have hlnil : recLookup (runKeys noFaults pre (listingOf st) st []).recs sr = [] := by
      rw [hlook]; exact hmoved
    have hnmem : sr ∉ (runKeys noFaults pre (listingOf st) st []).recs.map Prod.fst := by
      intro hm
      exact ((mem_recLookup_ne_nil _ sr hnd hnn).mp hm) hlnil
    rw [hnot] at hn
    obtain ⟨p, hp, hpn⟩ := List.mem_map.mp hn
    have hps : p.1 = sr := by
      apply mkSubject_inj
      rw [← hsub, ← hpn]
    exact hnmem (List.mem_map.mpr ⟨p, hp, hps⟩)

theorem c3_notification_grouping_witness :
    (move_and_clean_s3_objects none noFaults "dct-sales/".data
        ⟨[("a_1.csv".data, "u".data), ("b_2.csv".data, "v".data),
          ("a_3.csv".data, "w".data)]⟩).notifs.countP
        (fun n => n.subject == mkSubject "a".data) = 1 :=
  ((c3_notification_grouping "dct-sales/".data
      ⟨[("a_1.csv".data, "u".data), ("b_2.csv".data, "v".data),
        ("a_3.csv".data, "w".data)]⟩ "a".data).1 (by decide)).1

theorem mem_copiesOf (sr : Str) (tr : List S3Op) (f : Str)
    (h : f ∈ copiesOf sr tr) : ∃ d, S3Op.copy f d ∈ tr ∧ srId f = sr := by
  unfold copiesOf at h
  obtain ⟨op, hop, he⟩ := List.mem_filterMap.mp h
  cases op with
  | head _ => simp at he
  | del _ => simp at he
  | copy s d =>
    by_cases hs : srId s = sr
    · simp only [hs, if_true, reduceCtorEq] at he
      have he2 : s = f := by simpa using he
      subst he2
      exact ⟨d, hop, hs⟩
    · simp [hs] at he

/-- C4: a processed out-of-place key whose destination key already exists
at the moment it is processed is deleted (a delete call appears in the
trace), is never the source of a copy call, is recorded in no relocation
list, and appears in the file list of no notification. -/
theorem c4_duplicate_handling (pre : Str) (st : S3State) (ks1 ks2 : List Str)
    (k : Str) (st1 : S3State) (recs1 : List (Str × List Str)) (tr1 : List S3Op)
    (hnd : (listingOf st).Nodup)
    (hsplit : listingOf st = ks1 ++ k :: ks2)
    (hpre : pre.isPrefixOf k = false)
    (h1 : runKeys noFaults pre ks1 st [] = ⟨st1, recs1, tr1, none⟩)
    (hdup : keyExistsS3 st1 (newKey pre k) = true) :
    S3Op.del k ∈ (move_and_clean_s3_objects none noFaults pre st).trace
    ∧ (∀ d, S3Op.copy k d ∉ (move_and_clean_s3_objects none noFaults pre st).trace)
    ∧ (∀ p ∈ (runKeys noFaults pre (listingOf st) st []).recs, k ∉ p.2)
    ∧ (∀ n ∈ (move_and_clean_s3_objects none noFaults pre st).notifs,
        ∃ sr files, n = ⟨mkSubject sr, mkMessage sr files⟩ ∧ k ∉ files) := by
  have herr := runKeys_err_none noFaults pre (fun _ => rfl) (listingOf st) st []
  obtain ⟨hst, htr, hok, hnot⟩ := move_components noFaults pre st herr
  have hfull := runKeys_append noFaults pre ks1 (k :: ks2) st [] st1 recs1 tr1 h1
  have hstep : runKeys noFaults pre (k :: ks2) st1 recs1
      = ⟨(runKeys noFaults pre ks2 (deleteObject st1 k) recs1).state,
         (runKeys noFaults pre ks2 (deleteObject st1 k) recs1).recs,
         S3Op.head (newKey pre k) :: S3Op.del k ::
           (runKeys noFaults pre ks2 (deleteObject st1 k) recs1).trace,
         (runKeys noFaults pre ks2 (deleteObject st1 k) recs1).err⟩ := by
    simp [runKeys, hpre, hdup, noFaults]
  have htrace : (runKeys noFaults pre (listingOf st) st []).trace
      = tr1 ++ S3Op.head (newKey pre k) :: S3Op.del k ::
          (runKeys noFaults pre ks2 (deleteObject st1 k) recs1).trace := by
    rw [hsplit, hfull, hstep]
  have hnd2 : (ks1 ++ k :: ks2).Nodup := hsplit ▸ hnd
  rw [List.nodup_append] at hnd2
  have hk1 : k ∉ ks1 := fun hm => hnd2.2.2 hm (by simp)
  have hk2 : k ∉ ks2 := by
    have h3 := hnd2.2.1
    rw [List.nodup_cons] at h3
    exact h3.1
  have hnocopy : ∀ d,
      S3Op.copy k d ∉ (runKeys noFaults pre (listingOf st) st []).trace := by
    intro d hmem
    rw [htrace] at hmem
    rcases List.mem_append.mp hmem with hm | hm
    · have hsh := runKeys_ops_shape noFaults pre ks1 st [] _ (by rw [h1]; exact hm)
      exact hk1 hsh.1
    · rcases List.mem_cons.mp hm with hm2 | hm2
      · simp at hm2
      · rcases List.mem_cons.mp hm2 with hm3 | hm3
        · simp at hm3
        · have hsh := runKeys_ops_shape noFaults pre ks2 _ recs1 _ hm3
          exact hk2 hsh.1
  have hnorec : ∀ p ∈ (runKeys noFaults pre (listingOf st) st []).recs,
      k ∉ p.2 := by
    intro p hp hkp
    have hndr := runKeys_recs_nodup noFaults pre (listingOf st) st [] (by simp)
    have hlk : recLookup (runKeys noFaults pre (listingOf st) st []).recs p.1
        = copiesOf p.1 (runKeys noFaults pre (listingOf st) st []).trace := by
      have h4 := runKeys_recLookup noFaults pre (listingOf st) st [] p.1
      simpa [recLookup] using h4
    have hp2 : p.2 = copiesOf p.1
        (runKeys noFaults pre (listingOf st) st []).trace := by
      rw [← hlk]
      refine (recLookup_of_nodup_mem _ p.1 p.2 hndr ?_).symm
      rw [Prod.mk.eta]
      exact hp
    rw [hp2] at hkp
    obtain ⟨d, hd, _⟩ := mem_copiesOf p.1 _ k hkp
    exact hnocopy d hd
  refine ⟨?_, ?_, hnorec, ?_⟩
  · rw [htr, htrace]
    simp
  · intro d
    rw [htr]
    exact hnocopy d
  · intro n hn
    rw [hnot] at hn
    obtain ⟨p, hp, hpn⟩ := List.mem_map.mp hn
    exact ⟨p.1, p.2, hpn.symm, hnorec p hp⟩

theorem c4_duplicate_handling_witness :
    S3Op.del "a_1.csv".data
      ∈ (move_and_clean_s3_objects none noFaults "dct-sales/".data
          ⟨[("dct-sales/a/a_1.csv".data, "w".data),
            ("a_1.csv".data, "v".data)]⟩).trace :=
  (c4_duplicate_handling "dct-sales/".data
      ⟨[("dct-sales/a/a_1.csv".data, "w".data), ("a_1.csv".data, "v".data)]⟩
      ["dct-sales/a/a_1.csv".data] [] "a_1.csv".data
      ⟨[("dct-sales/a/a_1.csv".data, "w".data), ("a_1.csv".data, "v".data)]⟩
      [] [] (by decide) (by decide) (by decide) (by decide) (by decide)).1

theorem ne_newKey_of_not_prefixed (pre x y : Str)
    (hx : pre.isPrefixOf x = false) : x ≠ newKey pre y := by
  intro he
  rw [he] at hx
  simp [newKey_isPrefixOf] at hx

theorem keyExistsS3_deleteObject_ne (st : S3State) (k k' : Str) (h : k' ≠ k) :
    keyExistsS3 (deleteObject st k) k' = keyExistsS3 st k' := by
  unfold keyExistsS3
  rw [lookupKey_deleteObject, if_neg h]

theorem keyExistsS3_copyObject_mono (st : S3State) (s d k' : Str)
    (h : keyExistsS3 st k' = true) :
    keyExistsS3 (copyObject st s d) k' = true := by
  rw [keyExistsS3_iff] at h ⊢
  obtain ⟨v, hv⟩ := h
  unfold copyObject
  cases hs : lookupKey st s with
  | none => exact ⟨v, hv⟩
  | some w =>
    rw [lookupKey_putObject]
    by_cases hk : k' = d
    · exact ⟨w, if_pos hk⟩
    · exact ⟨v, by rw [if_neg hk]; exact hv⟩

theorem keyExistsS3_copyObject_self (st : S3State) (s d : Str)
    (hs : keyExistsS3 st s = true) :
    keyExistsS3 (copyObject st s d) d = true := by
  rw [keyExistsS3_iff] at hs
  obtain ⟨v, hv⟩ := hs
  rw [keyExistsS3_iff]
  exact ⟨v, lookupKey_copyObject_self st s d v hv⟩

theorem mem_recAppend_snd (recs : List (Str × List Str)) (s k : Str) :
    ∀ p ∈ recAppend recs s k, ∀ f ∈ p.2, (∃ q ∈ recs, f ∈ q.2) ∨ f = k := by
  induction recs with
  | nil =>
    intro p hp f hf
    simp [recAppend] at hp
    subst hp
    simp only at hf
    exact Or.inr (by simpa using hf)
  | cons q rest ih =>
    intro p hp f hf
    obtain ⟨a, fs⟩ := q
    simp only [recAppend] at hp
    by_cases ha : a = s
    · rw [if_pos ha] at hp
      rcases List.mem_cons.mp hp with h1 | h1
      · subst h1
        simp only at hf
        rcases List.mem_append.mp hf with h2 | h2
        · exact Or.inl ⟨(a, fs), by simp, h2⟩
        · exact Or.inr (by simpa using h2)
      · exact Or.inl ⟨p, List.mem_cons_of_mem _ h1, hf⟩
    · rw [if_neg ha] at hp
      rcases List.mem_cons.mp hp with h1 | h1
      · subst h1
        exact Or.inl ⟨(a, fs), by simp, hf⟩
      · rcases ih p h1 f hf with ⟨q2, hq2, hfq⟩ | h2
        · exact Or.inl ⟨q2, List.mem_cons_of_mem _ hq2, hfq⟩
        · exact Or.inr h2

theorem runKeys_recs_dest_exists (faults : Str → Option Str) (pre : Str) :
    ∀ (ks : List Str) (st : S3State) (recs : List (Str × List Str)),
      ks.Nodup →
      (∀ k' ∈ ks, pre.isPrefixOf k' = false → keyExistsS3 st k' = true) →
      (∀ p ∈ recs, ∀ f ∈ p.2, keyExistsS3 st (newKey pre f) = true) →
      ∀ p ∈ (runKeys faults pre ks st recs).recs, ∀ f ∈ p.2,
        keyExistsS3 (runKeys faults pre ks st recs).state (newKey pre f) = true := by
  intro ks
  induction ks with
  | nil => intro st recs _ _ hrec p hp f hf; exact hrec p hp f hf
  | cons k rest ih =>
    intro st recs hnd hlive hrec
    rw [List.nodup_cons] at hnd
    cases hpb : pre.isPrefixOf k with
    | true =>
      intro p hp f hf
      have hs1 : (runKeys faults pre (k :: rest) st recs).state
          = (runKeys faults pre rest st recs).state := by simp [runKeys, hpb]
      have hs2 : (runKeys faults pre (k :: rest) st recs).recs
          = (runKeys faults pre rest st recs).recs := by simp [runKeys, hpb]
      rw [hs2] at hp
      rw [hs1]
      exact ih st recs hnd.2
        (fun k' h2 => hlive k' (List.mem_cons_of_mem _ h2)) hrec p hp f hf
    | false =>
      cases hfa : faults (newKey pre k) with
      | some e =>
        intro p hp f hf
        have hs1 : (runKeys faults pre (k :: rest) st recs).state = st := by
          simp [runKeys, hpb, hfa]
        have hs2 : (runKeys faults pre (k :: rest) st recs).recs = recs := by
          simp [runKeys, hpb, hfa]
        rw [hs2] at hp
        rw [hs1]
        exact hrec p hp f hf
      | none =>
        cases heb : keyExistsS3 st (newKey pre k) with
        | true =>
          intro p hp f hf
          have hs1 : (runKeys faults pre (k :: rest) st recs).state
              = (runKeys faults pre rest (deleteObject st k) recs).state := by
            simp [runKeys, hpb, hfa, heb]
          have hs2 : (runKeys faults pre (k :: rest) st recs).recs
              = (runKeys faults pre rest (deleteObject st k) recs).recs := by
            simp [runKeys, hpb, hfa, heb]
          rw [hs2] at hp
          rw [hs1]
          refine ih (deleteObject st k) recs hnd.2 ?_ ?_ p hp f hf
          · intro k' h2 h3
            rw [keyExistsS3_deleteObject_ne st k k'
              (fun he => hnd.1 (he ▸ h2))]
            exact hlive k' (List.mem_cons_of_mem _ h2) h3
          · intro q hq g hg
            rw [keyExistsS3_deleteObject_ne st k (newKey pre g)
              (fun he => ne_newKey_of_not_prefixed pre k g hpb he.symm)]
            exact hrec q hq g hg
        | false =>
          intro p hp f hf
          have hs1 : (runKeys faults pre (k :: rest) st recs).state
              = (runKeys faults pre rest
                  (deleteObject (copyObject st k (newKey pre k)) k)
                  (recAppend recs (srId k) k)).state := by
            simp [runKeys, hpb, hfa, heb]
          have hs2 : (runKeys faults pre (k :: rest) st recs).recs
              = (runKeys faults pre rest
                  (deleteObject (copyObject st k (newKey pre k)) k)
                  (recAppend recs (srId k) k)).recs := by
            simp [runKeys, hpb, hfa, heb]
          rw [hs2] at hp
          rw [hs1]
          refine ih _ _ hnd.2 ?_ ?_ p hp f hf
          · intro k' h2 h3
            rw [keyExistsS3_deleteObject_ne _ k k' (fun he => hnd.1 (he ▸ h2))]
            exact keyExistsS3_copyObject_mono st k (newKey pre k) k'
              (hlive k' (List.mem_cons_of_mem _ h2) h3)
          · intro q hq g hg
            rw [keyExistsS3_deleteObject_ne _ k (newKey pre g)
              (fun he => ne_newKey_of_not_prefixed pre k g hpb he.symm)]
            rcases mem_recAppend_snd recs (srId k) k q hq g hg with ⟨q2, hq2, hgq⟩ | hgk
            · exact keyExistsS3_copyObject_mono st k (newKey pre k) (newKey pre g)
                (hrec q2 hq2 g hgq)
            · subst hgk
              exact keyExistsS3_copyObject_self st g (newKey pre g)
                (hlive g (by simp) hpb)

/-- C5: if the duplicate check for a processed key raises an unexpected
provider error, the run stops there: it returns
`(False, "An AWS client error occurred: <detail>")`, publishes no
notification, issues no further call (the final bucket is exactly the one
reached after the keys before the failure), and every relocation recorded
before the failure still has its destination key present (no rollback);
an error in the listing call itself likewise returns the single failure
result with the bucket untouched. -/
theorem c5_failure_semantics (faults : Str → Option Str) (pre : Str)
    (st : S3State) (ks1 ks2 : List Str) (k : Str) (st1 : S3State)
    (recs1 : List (Str × List Str)) (tr1 : List S3Op) (e : Str)
    (hnd : (listingOf st).Nodup)
    (hsplit : listingOf st = ks1 ++ k :: ks2)
    (h1 : runKeys faults pre ks1 st [] = ⟨st1, recs1, tr1, none⟩)
    (hpre : pre.isPrefixOf k = false)
    (hf : faults (newKey pre k) = some e) :
    move_and_clean_s3_objects none faults pre st
      = ⟨st1, [], tr1 ++ [S3Op.head (newKey pre k)], false, awsErrMsg e⟩
    ∧ (∀ p ∈ recs1, ∀ f ∈ p.2, keyExistsS3 st1 (newKey pre f) = true)
    ∧ (∀ (e2 : Str) (st2 : S3State),
        move_and_clean_s3_objects (some e2) faults pre st2
          = ⟨st2, [], [], false, awsErrMsg e2⟩) := by
  have hfull := runKeys_append faults pre ks1 (k :: ks2) st [] st1 recs1 tr1 h1
  have hstep : runKeys faults pre (k :: ks2) st1 recs1
      = ⟨st1, recs1, [S3Op.head (newKey pre k)], some e⟩ := by
    simp [runKeys, hpre, hf]
  have hrun : runKeys faults pre (listingOf st) st []
      = ⟨st1, recs1, tr1 ++ [S3Op.head (newKey pre k)], some e⟩ := by
    rw [hsplit, hfull, hstep]
  refine ⟨?_, ?_, fun e2 st2 => rfl⟩
  · rw [move_components_err faults pre st e (by rw [hrun]), hrun]
  · have hnd1 : ks1.Nodup := by
      have h2 : (ks1 ++ k :: ks2).Nodup := hsplit ▸ hnd
      exact (List.nodup_append.mp h2).1
    have hlive : ∀ k' ∈ ks1, pre.isPrefixOf k' = false →
        keyExistsS3 st k' = true := by
      intro k' hk' _
      have hm : k' ∈ listingOf st := by
        rw [hsplit]
        exact List.mem_append.mpr (Or.inl hk')
      obtain ⟨v, hv⟩ := lookupKey_isSome_of_mem_listing st k' hm
      rw [keyExistsS3_iff]
      exact ⟨v, hv⟩
    have hde := runKeys_recs_dest_exists faults pre ks1 st [] hnd1 hlive (by simp)
    rw [h1] at hde
    exact hde

theorem c5_failure_semantics_witness :
    move_and_clean_s3_objects none
        (fun d => if d = "dct-sales/a/a_1.csv".data
          then some "boom".data else none)
        "dct-sales/".data ⟨[("a_1.csv".data, "v".data)]⟩
      = ⟨⟨[("a_1.csv".data, "v".data)]⟩, [],
         [] ++ [S3Op.head (newKey "dct-sales/".data "a_1.csv".data)], false,
         awsErrMsg "boom".data⟩ :=
  (c5_failure_semantics
      (fun d => if d = "dct-sales/a/a_1.csv".data then some "boom".data else none)
      "dct-sales/".data ⟨[("a_1.csv".data, "v".data)]⟩ [] []
      "a_1.csv".data ⟨[("a_1.csv".data, "v".data)]⟩ [] [] "boom".data
      (by decide) (by decide) (by decide) (by decide) (by decide)).1

theorem lookupKey_none_of_not_exists (st : S3State) (k : Str)
    (h : keyExistsS3 st k = false) : lookupKey st k = none := by
  unfold keyExistsS3 at h
  cases hl : lookupKey st k with
  | none => rfl
  | some v => rw [hl] at h; simp at h

theorem trace_preserves_newKey (faults : Str → Option Str) (pre : Str)
    (k0 : Str) (rest : List Str) (hk0 : k0 ∉ rest) :
    ∀ (st : S3State) (recs : List (Str × List Str)),
      ∀ op ∈ (runKeys faults pre rest st recs).trace,
        opPreservesKey (newKey pre k0) op := by
  intro st recs op hop
  have hs := runKeys_ops_shape faults pre rest st recs op hop
  cases op with
  | head h => trivial
  | del k2 =>
    show k2 ≠ newKey pre k0
    exact ne_newKey_of_not_prefixed pre k2 k0 hs.2
  | copy s d =>
    show d ≠ newKey pre k0
    intro he
    have hd : d = newKey pre s := hs.2.2
    have hsk : s = k0 := newKey_inj pre s k0 (by rw [← hd, he])
    exact hk0 (hsk ▸ hs.1)

theorem runKeys_reloc_main (faults : Str → Option Str) (pre : Str)
    (hff : ∀ d, faults d = none) :
    ∀ (ks : List Str) (st : S3State) (recs : List (Str × List Str)),
      ks.Nodup →
      ∀ k, S3Op.copy k (newKey pre k) ∈ (runKeys faults pre ks st recs).trace →
      List.Sublist [S3Op.copy k (newKey pre k), S3Op.del k]
          (runKeys faults pre ks st recs).trace
      ∧ (∀ t1 t2, (runKeys faults pre ks st recs).trace = t1 ++ t2 →
          lookupKey (applyTrace st t1) k = lookupKey st k
          ∨ lookupKey (applyTrace st t1) (newKey pre k) = lookupKey st k)
      ∧ (∀ t1 t2,
          (runKeys faults pre ks st recs).trace = t1 ++ S3Op.del k :: t2 →
          S3Op.copy k (newKey pre k) ∈ t1
          ∧ lookupKey (applyTrace st t1) (newKey pre k) = lookupKey st k) := by
  intro ks
  induction ks with
  | nil =>
    intro st recs _ k hk
    simp [runKeys] at hk
  | cons k0 rest ih =>
    intro st recs hnd k hk
    rw [List.nodup_cons] at hnd
    cases hpb : pre.isPrefixOf k0 with
    | true =>
      have htr0 : (runKeys faults pre (k0 :: rest) st recs).trace
          = (runKeys faults pre rest st recs).trace := by simp [runKeys, hpb]
      rw [htr0] at hk ⊢
      exact ih st recs hnd.2 k hk
    | false =>
      cases heb : keyExistsS3 st (newKey pre k0) with
      | true =>
        have htr0 : (runKeys faults pre (k0 :: rest) st recs).trace
            = S3Op.head (newKey pre k0) :: S3Op.del k0 ::
              (runKeys faults pre rest (deleteObject st k0) recs).trace := by
          simp [runKeys, hpb, hff, heb]
        rw [htr0] at hk ⊢
        rcases List.mem_cons.mp hk with h | h
        · simp at h
        rcases List.mem_cons.mp h with h | h
        · simp at h
        have hsk := runKeys_ops_shape faults pre rest (deleteObject st k0) recs _ h
        have hkrest : k ∈ rest := hsk.1
        have hkk0 : k ≠ k0 := fun he => hnd.1 (he ▸ hkrest)
        have hCk : lookupKey (deleteObject st k0) k = lookupKey st k := by
          rw [lookupKey_deleteObject, if_neg hkk0]
        obtain ⟨ihs, ihb, ihc⟩ := ih (deleteObject st k0) recs hnd.2 k h
        refine ⟨?_, ?_, ?_⟩
        · exact List.Sublist.cons _ (List.Sublist.cons _ ihs)
        · intro t1 t2 heq
          cases t1 with
          | nil => exact Or.inl rfl
          | cons x t1a =>
            injection heq with hx heq2
            subst hx
            cases t1a with
            | nil => exact Or.inl rfl
            | cons y t1b =>
              injection heq2 with hy heq3
              subst hy
              rcases ihb t1b t2 heq3 with hl | hr
              · exact Or.inl (by
                  show lookupKey (applyTrace (deleteObject st k0) t1b) k
                      = lookupKey st k
                  rw [hl, hCk])
              · exact Or.inr (by
                  show lookupKey (applyTrace (deleteObject st k0) t1b)
                      (newKey pre k) = lookupKey st k
                  rw [hr, hCk])
        · intro t1 t2 heq
          cases t1 with
          | nil =>
            injection heq with h1 h2
            simp at h1
          | cons x t1a =>
            injection heq with hx heq2
            subst hx
            cases t1a with
            | nil =>
              injection heq2 with h1 h2
              injection h1 with h3
              exact absurd h3.symm hkk0
            | cons y t1b =>
              injection heq2 with hy heq3
              subst hy
              obtain ⟨hc, hl⟩ := ihc t1b t2 heq3
              refine ⟨by simp [hc], ?_⟩
              show lookupKey (applyTrace (deleteObject st k0) t1b)
                  (newKey pre k) = lookupKey st k
              rw [hl, hCk]
      | false =>
        have htr0 : (runKeys faults pre (k0 :: rest) st recs).trace
            = S3Op.head (newKey pre k0) :: S3Op.copy k0 (newKey pre k0) ::
              S3Op.del k0 ::
              (runKeys faults pre rest
                (deleteObject (copyObject st k0 (newKey pre k0)) k0)
                (recAppend recs (srId k0) k0)).trace := by
          simp [runKeys, hpb, hff, heb]
        have hk0nk : k0 ≠ newKey pre k0 :=
          ne_newKey_of_not_prefixed pre k0 k0 hpb
        have hB2 : lookupKey (copyObject st k0 (newKey pre k0)) (newKey pre k0)
            = lookupKey st k0 := by
          cases hv : lookupKey st k0 with
          | some v => exact lookupKey_copyObject_self st k0 (newKey pre k0) v hv
          | none =>
            unfold copyObject
            rw [hv]
            exact lookupKey_none_of_not_exists st (newKey pre k0) heb
        have hB : lookupKey
            (deleteObject (copyObject st k0 (newKey pre k0)) k0)
            (newKey pre k0) = lookupKey st k0 := by
          rw [lookupKey_deleteObject, if_neg (fun he => hk0nk he.symm), hB2]
        rw [htr0] at hk ⊢
        rcases List.mem_cons.mp hk with h | h
        · simp at h
        rcases List.mem_cons.mp h with h | h
        · -- the copy of k0 itself: k = k0
          have hkk0 : k = k0 := by injection h with h1 h2
          subst hkk0
          refine ⟨?_, ?_, ?_⟩
          · exact List.Sublist.cons _
              (List.Sublist.cons₂ _ (List.Sublist.cons₂ _ (List.nil_sublist _)))
          · intro t1 t2 heq
            cases t1 with
            | nil => exact Or.inl rfl
            | cons x t1a =>
              injection heq with hx heq2
              subst hx
              cases t1a with
              | nil => exact Or.inl rfl
              | cons y t1b =>
                injection heq2 with hy heq3
                subst hy
                cases t1b with
                | nil =>
                  exact Or.inl (lookupKey_copyObject_ne st k (newKey pre k) k
                    hk0nk)
                | cons z t1c =>
                  injection heq3 with hz heq4
                  subst hz
                  refine Or.inr ?_
                  show lookupKey (applyTrace
                      (deleteObject (copyObject st k (newKey pre k)) k) t1c)
                      (newKey pre k) = lookupKey st k
                  rw [applyTrace_preserves (newKey pre k) t1c _
                    (fun op hop => trace_preserves_newKey faults pre k rest
                      hnd.1 _ _ op (by
                        rw [heq4]
                        exact List.mem_append.mpr (Or.inl hop))), hB]
          · intro t1 t2 heq
            cases t1 with
            | nil =>
              injection heq with h1 h2
              simp at h1
            | cons x t1a =>
              injection heq with hx heq2
              subst hx
              cases t1a with
              | nil =>
                injection heq2 with h1 h2
                simp at h1
              | cons y t1b =>
                injection heq2 with hy heq3
                subst hy
                cases t1b with
                | nil =>
                  refine ⟨by simp, ?_⟩
                  show lookupKey (copyObject st k (newKey pre k))
                      (newKey pre k) = lookupKey st k
                  exact hB2
                | cons z t1c =>
                  injection heq3 with hz heq4
                  have hdel : S3Op.del k ∈ (runKeys faults pre rest
                      (deleteObject (copyObject st k (newKey pre k)) k)
                      (recAppend recs (srId k) k)).trace := by
                    rw [heq4]
                    exact List.mem_append.mpr (Or.inr (by simp))
                  have hsh := runKeys_ops_shape faults pre rest _ _ _ hdel
                  exact absurd hsh.1 hnd.1
        rcases List.mem_cons.mp h with h | h
        · simp at h
        · -- copy of a later key
          have hsk := runKeys_ops_shape faults pre rest _ _ _ h
          have hkrest : k ∈ rest := hsk.1
          have hkk0 : k ≠ k0 := fun he => hnd.1 (he ▸ hkrest)
          have hknk0 : k ≠ newKey pre k0 :=
            ne_newKey_of_not_prefixed pre k k0 hsk.2.1
          have hCk : lookupKey
              (deleteObject (copyObject st k0 (newKey pre k0)) k0) k
              = lookupKey st k := by
            rw [lookupKey_deleteObject, if_neg hkk0,
              lookupKey_copyObject_ne st k0 (newKey pre k0) k hknk0]
          obtain ⟨ihs, ihb, ihc⟩ := ih
            (deleteObject (copyObject st k0 (newKey pre k0)) k0)
            (recAppend recs (srId k0) k0) hnd.2 k h
          refine ⟨?_, ?_, ?_⟩
          · exact List.Sublist.cons _ (List.Sublist.cons _
              (List.Sublist.cons _ ihs))
          · intro t1 t2 heq
            cases t1 with
            | nil => exact Or.inl rfl
            | cons x t1a =>
              injection heq with hx heq2
              subst hx
              cases t1a with
              | nil => exact Or.inl rfl
              | cons y t1b =>
                injection heq2 with hy heq3
                subst hy
                cases t1b with
                | nil =>
                  exact Or.inl
                    (lookupKey_copyObject_ne st k0 (newKey pre k0) k hknk0)
                | cons z t1c =>
                  injection heq3 with hz heq4
                  subst hz
                  rcases ihb t1c t2 heq4 with hl | hr
                  · exact Or.inl (by
                      show lookupKey (applyTrace
                          (deleteObject (copyObject st k0 (newKey pre k0)) k0)
                          t1c) k = lookupKey st k
                      rw [hl, hCk])
                  · exact Or.inr (by
                      show lookupKey (applyTrace
                          (deleteObject (copyObject st k0 (newKey pre k0)) k0)
                          t1c) (newKey pre k) = lookupKey st k
                      rw [hr, hCk])
          · intro t1 t2 heq
            cases t1 with
            | nil =>
              injection heq with h1 h2
              simp at h1
            | cons x t1a =>
              injection heq with hx heq2
              subst hx
              cases t1a with
              | nil =>
                injection heq2 with h1 h2
                simp at h1
              | cons y t1b =>
                injection heq2 with hy heq3
                subst hy
                cases t1b with
                | nil =>
                  injection heq3 with h1 h2
                  injection h1 with h3
                  exact absurd h3.symm hkk0
                | cons z t1c =>
                  injection heq3 with hz heq4
                  subst hz
                  obtain ⟨hc, hl⟩ := ihc t1c t2 heq4
                  refine ⟨by simp [hc], ?_⟩
                  show lookupKey (applyTrace
                      (deleteObject (copyObject st k0 (newKey pre k0)) k0)
                      t1c) (newKey pre k) = lookupKey st k
                  rw [hl, hCk]

/-- C10: for every key the reorganizer relocates (a copy call with that
source appears in the trace), the copy to the destination key precedes the
delete of the source in the trace; replaying any prefix of the trace, the
key's original content is present under the original key or under the
destination key at every intermediate bucket; and at the moment the delete
is issued the destination key already holds that content. -/
theorem c10_copy_before_delete (pre : Str) (st : S3State) (k : Str)
    (hnd : (listingOf st).Nodup)
    (hcopy : S3Op.copy k (newKey pre k)
        ∈ (move_and_clean_s3_objects none noFaults pre st).trace) :
    List.Sublist [S3Op.copy k (newKey pre k), S3Op.del k]
        (move_and_clean_s3_objects none noFaults pre st).trace
    ∧ (∃ v, lookupKey st k = some v
        ∧ ∀ t1 t2,
            (move_and_clean_s3_objects none noFaults pre st).trace = t1 ++ t2 →
            lookupKey (applyTrace st t1) k = some v
            ∨ lookupKey (applyTrace st t1) (newKey pre k) = some v)
    ∧ (∀ t1 t2,
        (move_and_clean_s3_objects none noFaults pre st).trace
            = t1 ++ S3Op.del k :: t2 →
        S3Op.copy k (newKey pre k) ∈ t1
        ∧ lookupKey (applyTrace st t1) (newKey pre k) = lookupKey st k) := by
  have herr := runKeys_err_none noFaults pre (fun _ => rfl) (listingOf st) st []
  obtain ⟨hst, htr, hok, hnot⟩ := move_components noFaults pre st herr
  rw [htr] at hcopy ⊢
  have hmain := runKeys_reloc_main noFaults pre (fun _ => rfl) (listingOf st)
    st [] hnd k hcopy
  have hkmem : k ∈ listingOf st :=
    (runKeys_ops_shape noFaults pre (listingOf st) st [] _ hcopy).1
  obtain ⟨v, hv⟩ := lookupKey_isSome_of_mem_listing st k hkmem
  refine ⟨hmain.1, ⟨v, hv, ?_⟩, hmain.2.2⟩
  intro t1 t2 heq
  rcases hmain.2.1 t1 t2 heq with hl | hr
  · exact Or.inl (by rw [hl, hv])
  · exact Or.inr (by rw [hr, hv])

theorem c10_copy_before_delete_witness :
    List.Sublist
        [S3Op.copy "a_1.csv".data (newKey "dct-sales/".data "a_1.csv".data),
         S3Op.del "a_1.csv".data]
        (move_and_clean_s3_objects none noFaults "dct-sales/".data
          ⟨[("a_1.csv".data, "v".data)]⟩).trace :=
  (c10_copy_before_delete "dct-sales/".data ⟨[("a_1.csv".data, "v".data)]⟩
      "a_1.csv".data (by decide) (by decide)).1

/-- C2: evaluating the uploader as written at the spec's scenario input:
with an empty bucket and local file `sr1_x.csv`, the function stores the
bytes under the bare key `sr1_x.csv` at the bucket root, and nothing is
stored at the owner-derived destination key
`dct-sales/sr1/sr1_x.csv` that the specification requires. -/
theorem c2_upload_goes_to_root :
    lookupKey (upload_files_to_s3 noFaults ⟨[]⟩
        [("sr1_x.csv".data, "v".data)]).state "sr1_x.csv".data = some "v".data
    ∧ lookupKey (upload_files_to_s3 noFaults ⟨[]⟩
        [("sr1_x.csv".data, "v".data)]).state
        "dct-sales/sr1/sr1_x.csv".data = none
    ∧ (upload_files_to_s3 noFaults ⟨[]⟩
        [("sr1_x.csv".data, "v".data)]).ok = true := by
  decide

/-- C8 counterexample: an email subscription already confirmed on the
topic and a topic with no matching subscription (where the code issues a
fresh `subscribe` call, witnessed by `subscribeRequested`) give the caller
the *same* return value `(True, None)`: already-subscribed and initiated
are not distinguishable, so the three reported statuses are not distinct. -/
theorem c8_already_equals_initiated :
    subscribe_email_to_topic
        [⟨"email".data, "user@example.com".data, "arn:aws:sns:sub-1".data⟩]
        "user@example.com".data
      = subscribe_email_to_topic [] "user@example.com".data
    ∧ subscribe_email_to_topic
        [⟨"email".data, "user@example.com".data, "arn:aws:sns:sub-1".data⟩]
        "user@example.com".data = (true, none)
    ∧ subscribeRequested
        [⟨"email".data, "user@example.com".data, "arn:aws:sns:sub-1".data⟩]
        "user@example.com".data = false
    ∧ subscribeRequested [] "user@example.com".data = true := by
  decide

/-- C8 amended: the subscriber reports only two distinguishable outcomes:
`(True, 'Pending confirmation')` when the first matching email
subscription is pending, and `(True, None)` both when a non-pending
matching subscription exists and when a new subscription request is
issued. -/
theorem c8_two_statuses (subs : List Subscription) (email : Str) :
    (∀ s, subs.find? (subMatches email) = some s →
      (isPendingArn s.arn = true →
        subscribe_email_to_topic subs email
          = (true, some "Pending confirmation".data))
      ∧ (isPendingArn s.arn = false →
        subscribe_email_to_topic subs email = (true, none)))
    ∧ (subs.find? (subMatches email) = none →
        subscribe_email_to_topic subs email = (true, none))
    ∧ some "Pending confirmation".data ≠ (none : Option Str) := by
  refine ⟨?_, ?_, by simp⟩
  · intro s hs
    constructor
    · intro hp
      simp [subscribe_email_to_topic, hs, hp]
    · intro hp
      simp [subscribe_email_to_topic, hs, hp]
  · intro hs
    simp [subscribe_email_to_topic, hs]

theorem c8_two_statuses_witness :
    subscribe_email_to_topic
        [⟨"email".data, "user@example.com".data,
          "arn:aws:sns:sub-1 PendingConfirmation".data⟩]
        "user@example.com".data
      = (true, some "Pending confirmation".data) :=
  ((c8_two_statuses
      [⟨"email".data, "user@example.com".data,
        "arn:aws:sns:sub-1 PendingConfirmation".data⟩]
      "user@example.com".data).1
    ⟨"email".data, "user@example.com".data,
      "arn:aws:sns:sub-1 PendingConfirmation".data⟩ (by decide)).1 (by decide)
